import Mathlib

/-!
Verification of the request-batching engine (promise / counter / rbtree).

Shallow embedding of:
  - src/promise.rs   : the one-shot Completion Future (Promise) and its resolver
  - tests/counter.rs : the Counter state processor and its run_batch
  - tests/rbtree.rs  : the RBTreeMap persistent search tree and its (unfinished)
                       batched consumer
The crate modules batcher.rs and utils.rs (the Batcher coordinator and
utils::parallel_reduce) are not present in the source tree; where a claim needs
them they are modelled from the specification, and every such definition is
marked with a doc comment starting with the words Modelled from the spec.
-/

namespace Promise

/-- Result of one poll call, mirroring std::task::Poll. -/
inductive Poll (A : Type) where
  | ready (a : A)
  | pending
deriving Repr, DecidableEq

/-- State of one Promise together with its channel and resolver, as a record:
channel holds a value sent but not yet received by try_recv; waker is the
Arc-Mutex-Option-Waker cell (wake tokens are modelled as Nat); resolverUsed
records whether the FnOnce callback has been consumed; receiverDropped records
whether the receive end has been discarded; woken lists the tokens on which
Waker::wake has been called, most recent first. -/
structure State (A : Type) where
  channel : Option A
  waker : Option Nat
  resolverUsed : Bool
  receiverDropped : Bool
  woken : List Nat
deriving Repr

/-- The state right after Promise::new: empty channel, no waker registered,
resolver not yet consumed, receiver alive, nothing woken. -/
def State.init (A : Type) : State A :=
  { channel := none, waker := none, resolverUsed := false,
    receiverDropped := false, woken := [] }

/-- Promise::poll (src/promise.rs lines 31-39) as one atomic call: try_recv on
the channel; on Ok the value is taken out of the channel and returned Ready;
on Err the caller's wake token is inserted into the waker cell (replacing any
previously recorded token) and Pending is returned. -/
def poll {A : Type} (s : State A) (token : Nat) : Poll A × State A :=
  match s.channel with
  | some a => (Poll.ready a, { s with channel := none })
  | none => (Poll.pending, { s with waker := some token })

/-- The resolver callback built by Promise::new (src/promise.rs lines 18-23) as
one atomic call: snd.send(res) followed by expect — a send against a dropped
receiver panics with the message given to expect, modelled as Except.error —
then the waker cell is taken and, when a token was registered, that token is
woken. -/
def resolve {A : Type} (s : State A) (res : A) : Except String (State A) :=
  if s.receiverDropped then
    Except.error "Failed to send result to promise"
  else
    let s1 := { s with channel := some res }
    match s1.waker with
    | some w => Except.ok { s1 with waker := none, woken := w :: s1.woken }
    | none => Except.ok s1

/-- An event against one promise: the resolver being invoked with a value, or a
poll by a poller holding a wake token. -/
inductive Event (A : Type) where
  | resolveEv (a : A)
  | pollEv (token : Nat)

/-- Whether an event is an invocation of the resolver. -/
def Event.isResolve {A : Type} : Event A → Bool
  | Event.resolveEv _ => true
  | Event.pollEv _ => false

/-- One step of the promise lifecycle. The resolver is an FnOnce closure that
owns the Sender: invoking it requires that it has not been consumed yet (a
second invocation is ruled out by the type system, hence no enabled step), and
consuming it sets resolverUsed. A panic of the resolver (dropped receiver) also
counts as its single consumption. -/
def step {A : Type} (s : State A) (e : Event A) : Option (State A) :=
  match e with
  | Event.resolveEv a =>
      if s.resolverUsed then none
      else
        match resolve s a with
        | Except.ok s1 => some { s1 with resolverUsed := true }
        | Except.error _ => some { s with resolverUsed := true }
  | Event.pollEv t => some (poll s t).2

/-- Run a sequence of events from a state; none when some event is not enabled
(i.e. the trace is not realisable). -/
def run {A : Type} (s : State A) : List (Event A) → Option (State A)
  | [] => some s
  | e :: es =>
      match step s e with
      | some s1 => run s1 es
      | none => none

/-! Fine-grained interleaving model for the poll/resolve race. Promise::poll is
two observable actions (the try_recv check, then the waker insertion under the
waker lock); the resolver is two observable actions (the channel send, then the
take-and-wake under the waker lock). Each action below is atomic, which is
consistent with the Mutex: the lock is held only within a single action. -/

/-- Program counter of the polling task inside one poll call. -/
inductive PollerPc where
  | beforeCheck
  | beforeRegister
  | returnedPending
  | gotValue
deriving Repr, DecidableEq

/-- Program counter of the resolver thread inside its single invocation. -/
inductive ResolverPc where
  | beforeSend
  | beforeWake
  | done
deriving Repr, DecidableEq

/-- Configuration of one promise with one in-flight poll call and one in-flight
resolver invocation. -/
structure Config (A : Type) where
  channel : Option A
  waker : Option Nat
  woken : List Nat
  poller : PollerPc
  resolver : ResolverPc
deriving Repr, DecidableEq

/-- Labels of the four observable actions. -/
inductive Label where
  | pCheck
  | pRegister
  | rSend
  | rWake
deriving Repr, DecidableEq

/-- Initial configuration: nothing sent, no waker, poll and resolver about to
run, value a to be delivered, polling task holding wake token t. -/
def Config.init (A : Type) : Config A :=
  { channel := none, waker := none, woken := [],
    poller := PollerPc.beforeCheck, resolver := ResolverPc.beforeSend }

/-- One observable action of src/promise.rs. pCheck is poll's try_recv: on Ok
the value is taken and poll finishes Ready; on Err poll proceeds to register.
pRegister inserts the token into the waker cell (under the lock) and poll
returns Pending. rSend is the resolver's snd.send(res). rWake takes the waker
cell (under the lock) and wakes the token found there, if any. -/
def microStep {A : Type} (a : A) (t : Nat) (c : Config A) : Label → Option (Config A)
  | Label.pCheck =>
      match c.poller with
      | PollerPc.beforeCheck =>
          match c.channel with
          | some _ => some { c with channel := none, poller := PollerPc.gotValue }
          | none => some { c with poller := PollerPc.beforeRegister }
      | _ => none
  | Label.pRegister =>
      match c.poller with
      | PollerPc.beforeRegister =>
          some { c with waker := some t, poller := PollerPc.returnedPending }
      | _ => none
  | Label.rSend =>
      match c.resolver with
      | ResolverPc.beforeSend =>
          some { c with channel := some a, resolver := ResolverPc.beforeWake }
      | _ => none
  | Label.rWake =>
      match c.resolver with
      | ResolverPc.beforeWake =>
          match c.waker with
          | some w =>
              some { c with waker := none, woken := w :: c.woken, resolver := ResolverPc.done }
          | none => some { c with resolver := ResolverPc.done }
      | _ => none

/-- Run a schedule of actions; none when some action is not enabled. -/
def runMicro {A : Type} (a : A) (t : Nat) (c : Config A) : List Label → Option (Config A)
  | [] => some c
  | l :: ls =>
      match microStep a t c l with
      | some c1 => runMicro a t c1 ls
      | none => none

/-- Number of resolver invocations in a trace. -/
def countResolve {A : Type} (es : List (Event A)) : Nat :=
  (es.filter Event.isResolve).length

end Promise

namespace Counter

/-- Operation set of the Counter processor (tests/counter.rs): Get and Incr.
The declared result type (BatchedOp::Res) is Option i32, modelled Option Int. -/
inductive CounterOp where
  | get
  | incr
deriving Repr, DecidableEq

/-- The combinator fn reduce(l, r) of Counter::run_batch (tests/counter.rs
line 24). -/
def reduce (l r : Int) : Int := l + r

/-- The map closure of Counter::run_batch (tests/counter.rs lines 25-36),
closed over the snapshot vl taken at batch start. For each wrapped operation it
returns the value passed to that operation's resolver callback (first
component; the callback is invoked exactly once, on this value) and the partial
contribution returned to the reduction (second component): Get resolves
Some(vl) and contributes 0; Incr resolves None and contributes 1. -/
def map (vl : Int) : CounterOp → Option Int × Int
  | CounterOp.get => (some vl, 0)
  | CounterOp.incr => (none, 1)

/-- Modelled from the spec: utils::parallel_reduce is not in the source tree
(src/utils.rs is absent). Per spec section 4.3 it projects every wrapped
operation of the batch — invoking its resolver callback exactly once with the
computed result — and combines the partial contributions pairwise; a binary
tree pairing and a sequential fold must yield the same aggregate. The model
projects in batch order and folds sequentially from the first contribution,
returning each operation's delivered resolution and the aggregate (none for an
empty batch, which never arises: the coordinator only starts non-empty
batches). -/
def parallelReduce {Op Res Partial : Type} (ops : List Op)
    (combine : Partial → Partial → Partial) (project : Op → Res × Partial) :
    List Res × Option Partial :=
  let mapped := ops.map project
  (mapped.map Prod.fst,
   match mapped.map Prod.snd with
   | [] => none
   | h :: t => some (t.foldl combine h))

/-- Counter::run_batch (tests/counter.rs lines 22-39): snapshot vl of the
current value, parallel-reduce the batch with reduce and map, then add the
aggregate to the value. Returns the per-operation resolutions (in batch order)
and the post-batch counter value. -/
def runBatch (value : Int) (ops : List CounterOp) : List (Option Int) × Int :=
  let vl := value
  let r := parallelReduce ops reduce (map vl)
  (r.1, value + (r.2.getD 0))

/-- Modelled from the spec: the Batcher coordinator (src/batcher.rs is absent)
executes batches strictly sequentially — batch N completes before batch N+1
starts (spec section 5) — and every submitted operation lands in exactly one
batch. Running a batch sequence folds run_batch over it. -/
def runBatches (value : Int) : List (List CounterOp) → Int
  | [] => value
  | b :: bs => runBatches (runBatch value b).2 bs

/-- The values delivered to Get callbacks over a batch sequence: within each
batch the resolutions that are some (Get resolves Some(vl), Incr resolves
None), then the later batches. -/
def getResults (value : Int) : List (List CounterOp) → List (Option Int)
  | [] => []
  | b :: bs =>
      (runBatch value b).1.filter Option.isSome ++ getResults (runBatch value b).2 bs

/-- Number of Incr operations in a batch. -/
def countIncr (ops : List CounterOp) : Nat :=
  (ops.filter (fun op => op == CounterOp.incr)).length

/-- The 999-submission scenario of test_counter (tests/counter.rs lines
42-61): tasks 1..1000 over a zero-initialised counter, every 10th submitting
Get, the rest Incr. -/
def scenarioOps : List CounterOp :=
  (List.range' 1 999).map
    (fun i => if i % 10 == 0 then CounterOp.get else CounterOp.incr)

/-- A combination tree over the projected contributions of one batch: a leaf
per contribution, a branch combining two partial results. This models the
pairing orders the Parallel Reduction Protocol is free to use across any
number of workers. -/
inductive CombTree (γ : Type) where
  | leaf (x : γ)
  | branch (l r : CombTree γ)

/-- Combine a pairing tree with a combinator. -/
def CombTree.fold {γ : Type} (f : γ → γ → γ) : CombTree γ → γ
  | CombTree.leaf x => x
  | CombTree.branch l r => f (CombTree.fold f l) (CombTree.fold f r)

/-- The contributions at the leaves of a pairing tree, left to right. -/
def CombTree.leaves {γ : Type} : CombTree γ → List γ
  | CombTree.leaf x => [x]
  | CombTree.branch l r => CombTree.leaves l ++ CombTree.leaves r

/-- Sequential left-to-right fold of a batch of contributions, seeded with the
first contribution (batches are non-empty; the empty case yields 0). -/
def seqFold (xs : List Int) : Int :=
  match xs with
  | [] => 0
  | h :: t => t.foldl reduce h

/-! The counter of the source is an i32 (tests/counter.rs line 7), so its
arithmetic is bounded: in release mode an overflowing addition wraps to the
two's-complement representative, in debug mode it panics. The following model
makes that boundedness explicit (choosing the release wrap; the debug panic
occurs at exactly the same inputs), so that claims quantifying over the prior
counter value are settled against i32 semantics rather than unbounded
integers. -/

/-- Two's-complement reduction of an unbounded integer into the i32 range
-2147483648 .. 2147483647, the value an overflowing release-mode i32
operation actually stores (a debug build panics at the same inputs). -/
def wrap32 (x : Int) : Int :=
  (x + 2147483648) % 4294967296 - 2147483648

/-- The combinator fn reduce(l, r) of Counter::run_batch with its i32 addition
taken at machine precision: the mathematical sum wrapped into i32 range. -/
def reduceWrap (l r : Int) : Int := wrap32 (l + r)

/-- Counter::run_batch (tests/counter.rs lines 22-39) with the counter's i32
arithmetic modelled at machine precision: identical to runBatch except that
the combinator and the final self.value += res update wrap into i32 range. -/
def runBatchWrap (value : Int) (ops : List CounterOp) : List (Option Int) × Int :=
  let vl := value
  let r := parallelReduce ops reduceWrap (map vl)
  (r.1, wrap32 (value + r.2.getD 0))

/-- Modelled from the spec: the sequential batch coordinator of runBatches,
over the machine-precision counter. -/
def runBatchesWrap (value : Int) : List (List CounterOp) → Int
  | [] => value
  | b :: bs => runBatchesWrap (runBatchWrap value b).2 bs

/-- The values delivered to Get callbacks over a batch sequence, over the
machine-precision counter. -/
def getResultsWrap (value : Int) : List (List CounterOp) → List (Option Int)
  | [] => []
  | b :: bs =>
      (runBatchWrap value b).1.filter Option.isSome ++
        getResultsWrap (runBatchWrap value b).2 bs

end Counter

namespace RBT

/-- Node color (tests/rbtree.rs line 14). -/
inductive Color where
  | red
  | black
deriving Repr, DecidableEq

/-- Option-Box-Node trees of RBTreeMap (tests/rbtree.rs lines 8-23): nil is
None, node carries the fields of Node in declaration order: key, value, color,
left, right. -/
inductive Tree (α β : Type) where
  | nil
  | node (key : α) (value : β) (color : Color) (left right : Tree α β)
deriving Repr, DecidableEq

variable {α β : Type} [LinearOrder α]

/-- RBTreeMap::insert_into (lines 38-52): standard BST insertion, new nodes
red, equal key overwrites the value in place. -/
def insertInto : Tree α β → α → β → Tree α β
  | Tree.nil, key, value => Tree.node key value Color.red Tree.nil Tree.nil
  | Tree.node nk nv nc nl nr, key, value =>
      if key < nk then Tree.node nk nv nc (insertInto nl key value) nr
      else if key > nk then Tree.node nk nv nc nl (insertInto nr key value)
      else Tree.node nk value nc nl nr

/-- RBTreeMap::balance (lines 145-229): the four Okasaki rotation cases on a
black node with two consecutive red nodes below it, first match wins, any
other shape returned unchanged. The source takes a Node (never None); nil
falls through to the final catch-all arm. -/
def balance : Tree α β → Tree α β
  | Tree.node rightKey rightValue Color.black
      (Tree.node topKey topValue Color.red
        (Tree.node leftKey leftValue Color.red leftLeft leftRight) rightLeft)
      rightRight =>
      Tree.node topKey topValue Color.red
        (Tree.node leftKey leftValue Color.black leftLeft leftRight)
        (Tree.node rightKey rightValue Color.black rightLeft rightRight)
  | Tree.node rightKey rightValue Color.black
      (Tree.node leftKey leftValue Color.red leftLeft
        (Tree.node topKey topValue Color.red leftRight rightLeft))
      rightRight =>
      Tree.node topKey topValue Color.red
        (Tree.node leftKey leftValue Color.black leftLeft leftRight)
        (Tree.node rightKey rightValue Color.black rightLeft rightRight)
  | Tree.node leftKey leftValue Color.black leftLeft
      (Tree.node rightKey rightValue Color.red
        (Tree.node topKey topValue Color.red leftRight rightLeft) rightRight) =>
      Tree.node topKey topValue Color.red
        (Tree.node leftKey leftValue Color.black leftLeft leftRight)
        (Tree.node rightKey rightValue Color.black rightLeft rightRight)
  | Tree.node leftKey leftValue Color.black leftLeft
      (Tree.node topKey topValue Color.red leftRight
        (Tree.node rightKey rightValue Color.red rightLeft rightRight)) =>
      Tree.node topKey topValue Color.red
        (Tree.node leftKey leftValue Color.black leftLeft leftRight)
        (Tree.node rightKey rightValue Color.black rightLeft rightRight)
  | t => t

/-- RBTreeMap::find (lines 58-68): descend by strict comparisons, equal key
yields the stored value. -/
def find : Tree α β → α → Option β
  | Tree.nil, _ => none
  | Tree.node nk nv _ nl nr, key =>
      if key < nk then find nl key
      else if key > nk then find nr key
      else some nv

/-- RBTreeMap::get_highest (lines 131-143): detaches the rightmost node. When
the right child is None the node itself is the highest: the tree is replaced
by the node's left child and the detached node is handed back (of which the
caller reads only key and value, returned here as a pair); otherwise recurse
into the right subtree, in place. -/
def getHighest : Tree α β → Tree α β × Option (α × β)
  | Tree.nil => (Tree.nil, none)
  | Tree.node nk nv nc nl nr =>
      match nr with
      | Tree.nil => (nl, some (nk, nv))
      | _ =>
          let r := getHighest nr
          (Tree.node nk nv nc nl r.1, r.2)

/-- RBTreeMap::remove_from_pred (lines 116-129): walk the left spine; a node
whose key differs from pred_key is rebuilt with its left child filtered,
a node whose key equals pred_key is replaced by its left child. -/
def removeFromPred : Tree α β → α → Tree α β
  | Tree.nil, _ => Tree.nil
  | Tree.node nk nv nc nl nr, predKey =>
      if nk ≠ predKey then Tree.node nk nv nc (removeFromPred nl predKey) nr
      else nl

/-- RBTreeMap::remove_node (lines 76-114): BST deletion returning the updated
tree and the removed value. At the matching node: a leaf disappears, a single
child is promoted, and with two children the predecessor (highest of the left
subtree, detached by get_highest) replaces the node, after remove_from_pred is
run on the already-detached left subtree. The none arm of the predecessor is
unreachable — get_highest of a non-empty tree always detaches a node, which
the source unwraps. -/
def removeNode : Tree α β → α → Tree α β × Option β
  | Tree.nil, _ => (Tree.nil, none)
  | Tree.node nk nv nc nl nr, key =>
      if key < nk then
        let l := removeNode nl key
        (Tree.node nk nv nc l.1 nr, l.2)
      else if key > nk then
        let r := removeNode nr key
        (Tree.node nk nv nc nl r.1, r.2)
      else
        match nl, nr with
        | Tree.nil, Tree.nil => (Tree.nil, some nv)
        | l, Tree.nil => (l, some nv)
        | Tree.nil, r => (r, some nv)
        | l, r =>
            let g := getHighest l
            match g.2 with
            | some p =>
                let l2 := removeFromPred g.1 p.1
                (Tree.node p.1 p.2 nc l2 r, some nv)
            | none => (Tree.nil, some nv)

/-- RBTreeMap::insert (lines 34-36): insert_into at the root, then balance. -/
def insert (t : Tree α β) (key : α) (value : β) : Tree α β :=
  balance (insertInto t key value)

/-- RBTreeMap::remove (lines 70-74): remove_node at the root, then balance the
new root when it exists (root.map in the source; nil stays nil, which the
catch-all arm of balance also gives). -/
def remove (t : Tree α β) (key : α) : Tree α β × Option β :=
  let r := removeNode t key
  (match r.1 with
   | Tree.nil => Tree.nil
   | n => balance n, r.2)

/-- RBTreeMap::new (lines 30-32): the empty map. -/
def newMap (α β : Type) : Tree α β := Tree.nil

/-- Multiset of key-value bindings stored in a tree. -/
def pairs : Tree α β → Multiset (α × β)
  | Tree.nil => 0
  | Tree.node k v _ l r => (k, v) ::ₘ (pairs l + pairs r)

/-- Multiset of keys stored in a tree. -/
def keys (t : Tree α β) : Multiset α :=
  (pairs t).map Prod.fst

/-- The binary-search-tree ordering invariant: at every node all keys of the
left subtree are strictly below the node's key and all keys of the right
subtree strictly above. -/
def BST : Tree α β → Prop
  | Tree.nil => True
  | Tree.node k _ _ l r =>
      (∀ x ∈ keys l, x < k) ∧ (∀ x ∈ keys r, k < x) ∧ BST l ∧ BST r

/-- Operations of the batched tree-map consumer (tests/rbtree.rs lines
232-237); the declared result type is Option V. -/
inductive MapOp (α β : Type) where
  | insertOp (key : α) (value : β)
  | getOp (key : α)
  | removeOp (key : α)

/-- The reduce combinator inside RBTreeMap::run_batch (tests/rbtree.rs lines
253-259): its whole body is todo!(), a panic with message not yet implemented,
modelled as Except.error. -/
def rbReduce (l r : Tree α β) : Except String (Tree α β) :=
  Except.error "not yet implemented"

/-- The map closure inside RBTreeMap::run_batch (lines 261-267): each of the
three arms is todo!(), so projecting any operation panics before the
operation's callback is invoked. -/
def rbMapOp (op : MapOp α β) : Except String (Tree α β) :=
  match op with
  | MapOp.insertOp _ _ => Except.error "not yet implemented"
  | MapOp.getOp _ => Except.error "not yet implemented"
  | MapOp.removeOp _ => Except.error "not yet implemented"

/-- RBTreeMap::run_batch (lines 252-271): parallel_reduce projects each
operation with the map closure (the first projection already panics on a
non-empty batch, resolving no callback), and even an empty batch falls through
to the trailing unconditional todo!(). A successful run would produce the
resolutions and the merged tree; the call never succeeds. -/
def rbRunBatch (m : Tree α β) (ops : List (MapOp α β)) :
    Except String (List (Option β) × Tree α β) := do
  let _ ← ops.mapM (fun op => rbMapOp op)
  Except.error "not yet implemented"

end RBT

/-! ## Theorems -/

/-- Helper: poll does not touch the resolverUsed flag. -/
theorem Promise.poll_resolverUsed {A : Type} (s : Promise.State A) (t : Nat) :
    (Promise.poll s t).2.resolverUsed = s.resolverUsed := by
  unfold Promise.poll
  cases s.channel <;> rfl

/-- Helper: countResolve of a cons. -/
theorem Promise.countResolve_cons {A : Type} (e : Promise.Event A) (es : List (Promise.Event A)) :
    Promise.countResolve (e :: es) =
      (if e.isResolve then 1 else 0) + Promise.countResolve es := by
  unfold Promise.countResolve
  cases he : e.isResolve <;> simp [List.filter_cons, he, Nat.add_comm]

/-- Helper: along any realisable trace, the number of resolver invocations is
bounded by 1 when the resolver closure is still available and by 0 once it has
been consumed. -/
theorem Promise.countResolve_run_le {A : Type} :
    ∀ (es : List (Promise.Event A)) (s s1 : Promise.State A),
      Promise.run s es = some s1 →
      Promise.countResolve es ≤ (if s.resolverUsed then 0 else 1) := by
  intro es
  induction es with
  | nil => intro s s1 _; simp [Promise.countResolve]
  | cons e es ih =>
      intro s s1 h
      unfold Promise.run at h
      rw [Promise.countResolve_cons]
      cases e with
      | resolveEv a =>
          unfold Promise.step at h
          by_cases hu : s.resolverUsed
          · simp [hu] at h
          · simp [hu] at h
            rcases hr : Promise.resolve s a with s2 | s2 <;> rw [hr] at h
            · have hb := ih _ _ h
              simp at hb
              simp [Promise.Event.isResolve, hu, hb]
            · have hb := ih _ _ h
              simp at hb
              simp [Promise.Event.isResolve, hu, hb]
      | pollEv t =>
          unfold Promise.step at h
          have hb := ih _ _ h
          rw [Promise.poll_resolverUsed] at hb
          simpa [Promise.Event.isResolve] using hb

/-- C1 (code_bug evidence): the lost-wakeup interleaving exists. From the
initial configuration, the schedule pCheck, rSend, rWake, pRegister — the
resolver delivering strictly between poll's failed value check and poll's
token registration — is realisable and ends with the value sitting in the
channel, token 7 registered in the waker cell, the woken list empty, poll
returned Pending and the resolver finished; moreover no action of either
thread is still enabled, so the registered token is never woken and the
awaiter never receives the value, contrary to the claim. -/
theorem c1_lost_wakeup_counterexample :
    Promise.runMicro (0 : Nat) 7 (Promise.Config.init Nat)
        [Promise.Label.pCheck, Promise.Label.rSend, Promise.Label.rWake,
         Promise.Label.pRegister] =
      some { channel := some 0, waker := some 7, woken := [],
             poller := Promise.PollerPc.returnedPending,
             resolver := Promise.ResolverPc.done } ∧
    ∀ l : Promise.Label,
      Promise.microStep (0 : Nat) 7
        { channel := some 0, waker := some 7, woken := [],
          poller := Promise.PollerPc.returnedPending,
          resolver := Promise.ResolverPc.done } l = none := by
  constructor
  · rfl
  · intro l
    cases l <;> rfl

/-- C4: the poll contract of Promise::poll. If a value has been delivered and
not yet consumed, poll returns Ready with that value (taking it from the
channel); otherwise poll returns Pending and records the caller's wake token,
replacing whatever token was recorded before. -/
theorem c4_poll_contract {A : Type} (s : Promise.State A) (t : Nat) :
    (∀ a, s.channel = some a →
        Promise.poll s t = (Promise.Poll.ready a, { s with channel := none })) ∧
    (s.channel = none →
        Promise.poll s t = (Promise.Poll.pending, { s with waker := some t })) := by
  constructor
  · intro a h
    unfold Promise.poll
    rw [h]
  · intro h
    unfold Promise.poll
    rw [h]

/-- Witness for C4: a state with a delivered value polls Ready with it, and a
fresh state polls Pending, registering token 3 in place of the previously
recorded token 9. -/
theorem c4_poll_contract_witness :
    Promise.poll
        { channel := some 5, waker := some 9, resolverUsed := true,
          receiverDropped := false, woken := [] } 3 =
      (Promise.Poll.ready 5,
       { channel := none, waker := some 9, resolverUsed := true,
         receiverDropped := false, woken := [] }) ∧
    Promise.poll (Promise.State.init Nat) 3 =
      (Promise.Poll.pending, { Promise.State.init Nat with waker := some 3 }) :=
  ⟨(c4_poll_contract _ 3).1 5 rfl, (c4_poll_contract _ 3).2 rfl⟩

/-- C5: at-most-once resolution by construction. The resolver closure is a
FnOnce consuming the channel's Sender, so a trace of events is realisable only
if it invokes the resolver at most once: every realisable trace from the
initial promise state contains at most one resolver invocation. -/
theorem c5_resolver_at_most_once {A : Type} (es : List (Promise.Event A))
    (s1 : Promise.State A) (h : Promise.run (Promise.State.init A) es = some s1) :
    Promise.countResolve es ≤ 1 := by
  have hb := Promise.countResolve_run_le es (Promise.State.init A) s1 h
  simpa [Promise.State.init] using hb

/-- Witness for C5: the trace resolving with 42 and then polling once is
realisable from the initial state and contains one resolver invocation. -/
theorem c5_resolver_at_most_once_witness :
    Promise.run (Promise.State.init Nat)
        [Promise.Event.resolveEv 42, Promise.Event.pollEv 0] =
      some { channel := none, waker := none, resolverUsed := true,
             receiverDropped := false, woken := [] } ∧
    Promise.countResolve [Promise.Event.resolveEv (42 : Nat), Promise.Event.pollEv 0] ≤ 1 :=
  ⟨rfl, c5_resolver_at_most_once _ _ rfl⟩

/-- C6: invoking the resolver after the receive end has been discarded fails
loudly — the failed channel send panics with the expect message — instead of
being silently tolerated. -/
theorem c6_resolve_after_drop_panics {A : Type} (s : Promise.State A) (res : A)
    (h : s.receiverDropped = true) :
    Promise.resolve s res = Except.error "Failed to send result to promise" := by
  unfold Promise.resolve
  rw [h]
  rfl

/-- Witness for C6 at a concrete dropped-receiver state. -/
theorem c6_resolve_after_drop_panics_witness :
    ({ channel := none, waker := none, resolverUsed := false,
       receiverDropped := true, woken := [] } : Promise.State Nat).receiverDropped = true ∧
    Promise.resolve
        ({ channel := none, waker := none, resolverUsed := false,
           receiverDropped := true, woken := [] } : Promise.State Nat) 5 =
      Except.error "Failed to send result to promise" :=
  ⟨rfl, c6_resolve_after_drop_panics _ 5 rfl⟩

/-- Helper: the resolutions produced by parallel_reduce are the per-operation
projections, one per operation, in batch order. -/
theorem Counter.parallelReduce_res {Op Res Partial : Type} (ops : List Op)
    (combine : Partial → Partial → Partial) (project : Op → Res × Partial) :
    (Counter.parallelReduce ops combine project).1 =
      ops.map (fun op => (project op).1) := by
  simp [Counter.parallelReduce, List.map_map, Function.comp]

/-- Helper: folding the combinator of Counter::run_batch from a seed adds the
sum of the list. -/
theorem Counter.foldl_reduce (l : List Int) (a : Int) :
    l.foldl Counter.reduce a = a + l.sum := by
  induction l generalizing a with
  | nil => simp
  | cons x xs ih => simp [Counter.reduce, ih, add_assoc]

/-- Helper: the aggregate computed by parallel_reduce with the Counter
combinator is the sum of the projected contributions. -/
theorem Counter.parallelReduce_agg {Op Res : Type} (ops : List Op)
    (project : Op → Res × Int) :
    ((Counter.parallelReduce ops Counter.reduce project).2.getD 0) =
      (ops.map (fun op => (project op).2)).sum := by
  cases ops with
  | nil => simp [Counter.parallelReduce]
  | cons op rest =>
      simp [Counter.parallelReduce, Counter.foldl_reduce, List.map_map]
      rfl

/-- Helper: the resolutions of one Counter batch. -/
theorem Counter.runBatch_res (v0 : Int) (ops : List Counter.CounterOp) :
    (Counter.runBatch v0 ops).1 = ops.map (fun op => (Counter.map v0 op).1) := by
  simp [Counter.runBatch, Counter.parallelReduce_res]

/-- Helper: the contributions of one Counter batch sum to the number of Incr
operations in it. -/
theorem Counter.contrib_sum (vl : Int) (ops : List Counter.CounterOp) :
    (ops.map (fun op => (Counter.map vl op).2)).sum = (Counter.countIncr ops : Int) := by
  induction ops with
  | nil => simp [Counter.countIncr]
  | cons op rest ih =>
      cases op <;>
        simp [Counter.map, Counter.countIncr, List.filter_cons] at ih ⊢ <;>
        omega

/-- Helper: a Counter batch moves the value from v0 to v0 plus the number of
Incr operations in the batch. -/
theorem Counter.runBatch_value (v0 : Int) (ops : List Counter.CounterOp) :
    (Counter.runBatch v0 ops).2 = v0 + (Counter.countIncr ops : Int) := by
  have h := Counter.parallelReduce_agg ops (Counter.map v0)
  simp [Counter.runBatch, h, Counter.contrib_sum]

/-- Helper: countIncr distributes over append. -/
theorem Counter.countIncr_append (l1 l2 : List Counter.CounterOp) :
    Counter.countIncr (l1 ++ l2) = Counter.countIncr l1 + Counter.countIncr l2 := by
  simp [Counter.countIncr, List.filter_append]

/-- Helper: a batch sequence moves the value by the total Incr count. -/
theorem Counter.runBatches_eq (batches : List (List Counter.CounterOp)) :
    ∀ v : Int, Counter.runBatches v batches = v + (Counter.countIncr batches.flatten : Int) := by
  induction batches with
  | nil => intro v; simp [Counter.runBatches, Counter.countIncr]
  | cons b bs ih =>
      intro v
      simp [Counter.runBatches, ih, Counter.runBatch_value, Counter.countIncr_append]
      ring

/-- Helper: every value delivered to a Get across a batch sequence is some x
with x at most the final counter value. -/
theorem Counter.getResults_le (batches : List (List Counter.CounterOp)) :
    ∀ (v : Int) (r : Option Int), r ∈ Counter.getResults v batches →
      ∃ x, r = some x ∧ x ≤ Counter.runBatches v batches := by
  induction batches with
  | nil => intro v r hr; simp [Counter.getResults] at hr
  | cons b bs ih =>
      intro v r hr
      simp only [Counter.getResults, List.mem_append] at hr
      rcases hr with hr | hr
      · rw [List.mem_filter] at hr
        obtain ⟨hmem, hsome⟩ := hr
        rw [Counter.runBatch_res] at hmem
        rw [List.mem_map] at hmem
        obtain ⟨op, _, hop⟩ := hmem
        cases op with
        | get =>
            refine ⟨v, ?_, ?_⟩
            · simp [Counter.map] at hop
              exact hop.symm
            · show v ≤ Counter.runBatches v (b :: bs)
              rw [Counter.runBatches_eq]
              omega
        | incr =>
            simp [Counter.map] at hop
            rw [← hop] at hsome
            simp at hsome
      · obtain ⟨x, hx, hle⟩ := ih _ _ hr
        exact ⟨x, hx, by simpa [Counter.runBatches] using hle⟩

/-- C2: snapshot consistency and exactly-once resolution inside one batch.
For every pre-batch value v0 and every batch, Counter::run_batch delivers
exactly one resolution per wrapped operation, in batch order: each Get
operation's callback receives Some(v0) — the counter value at batch start,
never a partial effect of sibling Incr operations — and each Incr operation's
callback receives None. -/
theorem c2_snapshot_consistency (v0 : Int) (ops : List Counter.CounterOp) :
    (Counter.runBatch v0 ops).1 =
      ops.map (fun op =>
        match op with
        | Counter.CounterOp.get => some v0
        | Counter.CounterOp.incr => none) := by
  rw [Counter.runBatch_res]
  apply List.map_congr_left
  intro op _
  cases op <;> rfl

set_option maxRecDepth 10000 in
/-- Helper: the Incr count of the 999-submission scenario is 900. -/
theorem Counter.countIncr_scenario : Counter.countIncr Counter.scenarioOps = 900 := by
  decide

/-- Helper: wrapping is the identity exactly on the i32 range. -/
theorem Counter.wrap32_eq_self (x : Int) (h1 : -2147483648 ≤ x) (h2 : x < 2147483648) :
    Counter.wrap32 x = x := by
  unfold Counter.wrap32
  omega

/-- Helper: every projected Counter contribution is 0 or 1. -/
theorem Counter.contrib_bounds (vl : Int) (op : Counter.CounterOp) :
    0 ≤ (Counter.map vl op).2 ∧ (Counter.map vl op).2 ≤ 1 := by
  cases op <;> simp [Counter.map]

/-- Helper: the machine-precision fold agrees with unbounded addition while
the running total stays in i32 range. -/
theorem Counter.foldl_reduceWrap (l : List Int) :
    ∀ a : Int, 0 ≤ a → (∀ x ∈ l, 0 ≤ x ∧ x ≤ 1) → a + l.sum < 2147483648 →
      l.foldl Counter.reduceWrap a = a + l.sum := by
  induction l with
  | nil => intro a _ _ _; simp
  | cons x xs ih =>
      intro a ha hl hs
      have hx := hl x (by simp)
      have hxs : ∀ y ∈ xs, 0 ≤ y ∧ y ≤ 1 := fun y hy => hl y (by simp [hy])
      have hsum : 0 ≤ xs.sum := List.sum_nonneg (fun y hy => (hxs y hy).1)
      rw [List.sum_cons] at hs
      have hstep : Counter.reduceWrap a x = a + x := by
        unfold Counter.reduceWrap
        exact Counter.wrap32_eq_self _ (by omega) (by omega)
      rw [List.foldl_cons, hstep, ih (a + x) (by omega) hxs (by omega), List.sum_cons]
      ring

/-- Helper: the aggregate slot of parallel_reduce, as a head-seeded fold. -/
theorem Counter.parallelReduce_agg_eq {Op Res : Type} (ops : List Op)
    (combine : Int → Int → Int) (project : Op → Res × Int) :
    (Counter.parallelReduce ops combine project).2 =
      (match ops.map (fun op => (project op).2) with
        | [] => none
        | h :: t => some (t.foldl combine h)) := by
  cases ops with
  | nil => rfl
  | cons op rest =>
      simp [Counter.parallelReduce, List.map_map]
      rfl

/-- Helper: the machine-precision aggregate of a batch whose Incr count is
representable equals the Incr count. -/
theorem Counter.parallelReduceWrap_agg (vl : Int) (ops : List Counter.CounterOp)
    (hK : (Counter.countIncr ops : Int) < 2147483648) :
    ((Counter.parallelReduce ops Counter.reduceWrap (Counter.map vl)).2.getD 0) =
      (Counter.countIncr ops : Int) := by
  cases ops with
  | nil => simp [Counter.parallelReduce, Counter.countIncr]
  | cons op rest =>
      rw [Counter.parallelReduce_agg_eq]
      simp only [List.map_cons, Option.getD_some]
      have hrest : ∀ x ∈ rest.map (fun o => (Counter.map vl o).2), 0 ≤ x ∧ x ≤ 1 := by
        intro x hx
        rw [List.mem_map] at hx
        obtain ⟨o, _, rfl⟩ := hx
        exact Counter.contrib_bounds vl o
      have h0 := Counter.contrib_bounds vl op
      have hs := Counter.contrib_sum vl (op :: rest)
      rw [List.map_cons, List.sum_cons] at hs
      rw [Counter.foldl_reduceWrap _ _ h0.1 hrest (by omega)]
      omega

/-- Helper: resolutions do not depend on the combinator, so runBatchWrap
delivers the same resolutions as the unbounded model. -/
theorem Counter.runBatchWrap_res (v0 : Int) (ops : List Counter.CounterOp) :
    (Counter.runBatchWrap v0 ops).1 = ops.map (fun op => (Counter.map v0 op).1) := by
  simp [Counter.runBatchWrap, Counter.parallelReduce_res]

/-- Helper: within i32 range a machine-precision batch moves the value from v0
to v0 plus the batch's Incr count. -/
theorem Counter.runBatchWrap_value (v0 : Int) (ops : List Counter.CounterOp)
    (hlo : -2147483648 ≤ v0)
    (hhi : v0 + (Counter.countIncr ops : Int) < 2147483648)
    (hK : (Counter.countIncr ops : Int) < 2147483648) :
    (Counter.runBatchWrap v0 ops).2 = v0 + (Counter.countIncr ops : Int) := by
  have h3 := Counter.parallelReduceWrap_agg v0 ops hK
  have hpos : (0 : Int) ≤ (Counter.countIncr ops : Int) := Int.natCast_nonneg _
  show Counter.wrap32
      (v0 + (Counter.parallelReduce ops Counter.reduceWrap (Counter.map v0)).2.getD 0) = _
  rw [h3]
  exact Counter.wrap32_eq_self _ (by omega) (by omega)

/-- Helper: while the running counter stays in i32 range, the
machine-precision batch sequence agrees with the unbounded model, both in the
final value and in the values delivered to Gets. -/
theorem Counter.runBatchesWrap_agree (batches : List (List Counter.CounterOp)) :
    ∀ v : Int, 0 ≤ v →
      v + (Counter.countIncr batches.flatten : Int) < 2147483648 →
      Counter.runBatchesWrap v batches = Counter.runBatches v batches ∧
      Counter.getResultsWrap v batches = Counter.getResults v batches := by
  induction batches with
  | nil => intro v _ _; exact ⟨rfl, rfl⟩
  | cons b bs ih =>
      intro v hv hbound
      have hcounts : Counter.countIncr (b :: bs).flatten =
          Counter.countIncr b + Counter.countIncr bs.flatten := by
        rw [List.flatten_cons, Counter.countIncr_append]
      have hval : (Counter.runBatchWrap v b).2 = (Counter.runBatch v b).2 := by
        rw [Counter.runBatchWrap_value v b (by omega) (by omega) (by omega),
          Counter.runBatch_value]
      have hres : (Counter.runBatchWrap v b).1 = (Counter.runBatch v b).1 := by
        rw [Counter.runBatchWrap_res, Counter.runBatch_res]
      have hv2 : (Counter.runBatch v b).2 = v + (Counter.countIncr b : Int) :=
        Counter.runBatch_value v b
      obtain ⟨ih1, ih2⟩ := ih (v + (Counter.countIncr b : Int)) (by omega) (by omega)
      constructor
      · simp only [Counter.runBatchesWrap, Counter.runBatches]
        rw [hval, hv2, ih1]
      · simp only [Counter.getResultsWrap, Counter.getResults]
        rw [hres, hval, hv2, ih2]

/-- Counterexample for C3 as stated: the post-batch value is not v0 + K for
every prior value v0, because the counter is an i32. At v0 = 2147483647
(i32::MAX) with a single Incr, the release-mode counter wraps to -2147483648
(a debug build panics at the same input) instead of reaching 2147483648. -/
theorem c3_overflow_counterexample :
    (Counter.runBatchWrap 2147483647 [Counter.CounterOp.incr]).2 = -2147483648 ∧
    (2147483647 : Int) + (Counter.countIncr [Counter.CounterOp.incr] : Int) = 2147483648 ∧
    (Counter.runBatchWrap 2147483647 [Counter.CounterOp.incr]).2 ≠
      2147483647 + (Counter.countIncr [Counter.CounterOp.incr] : Int) := by
  refine ⟨?_, ?_, ?_⟩ <;> decide

/-- C3 (corrected): aggregate correctness within i32 range. Provided the prior
value v0 is a representable i32, the batch's Incr count is below 2^31, and
v0 plus that count does not overflow i32, run_batch moves the counter from v0
to exactly v0 plus the Incr count; and in the 999-submission scenario over the
zero-initialised counter (every 10th of 1..1000 a Get, the rest Incr, split
into sequential batches in any order — all values stay far inside i32 range),
the final value is 900, a trailing Get resolves exactly Some 900, and every
Get along the way resolves Some x with x at most 900. Without the range side
conditions the first conjunct is false at the i32 boundary: see the overflow
counterexample. -/
theorem c3_aggregate_correctness (v0 : Int) (ops : List Counter.CounterOp)
    (batches : List (List Counter.CounterOp))
    (hperm : batches.flatten.Perm Counter.scenarioOps)
    (hlo : -2147483648 ≤ v0)
    (hhi : v0 + (Counter.countIncr ops : Int) < 2147483648)
    (hK : (Counter.countIncr ops : Int) < 2147483648) :
    (Counter.runBatchWrap v0 ops).2 = v0 + (Counter.countIncr ops : Int) ∧
    Counter.runBatchesWrap 0 batches = 900 ∧
    (Counter.runBatchWrap (Counter.runBatchesWrap 0 batches) [Counter.CounterOp.get]).1 =
      [some 900] ∧
    ∀ r ∈ Counter.getResultsWrap 0 batches, ∃ x, r = some x ∧ x ≤ 900 := by
  have hcount : Counter.countIncr batches.flatten = 900 := by
    have hp := (hperm.filter (fun op => op == Counter.CounterOp.incr)).length_eq
    unfold Counter.countIncr
    rw [hp]
    exact Counter.countIncr_scenario
  obtain ⟨hrb, hgr⟩ := Counter.runBatchesWrap_agree batches 0 (le_refl 0)
    (by rw [hcount]; norm_num)
  have hfin : Counter.runBatches 0 batches = 900 := by
    rw [Counter.runBatches_eq, hcount]
    norm_num
  have hfinal : Counter.runBatchesWrap 0 batches = 900 := by
    rw [hrb]
    exact hfin
  refine ⟨Counter.runBatchWrap_value v0 ops hlo hhi hK, hfinal, ?_, ?_⟩
  · rw [Counter.runBatchWrap_res, hfinal]
    rfl
  · intro r hr
    rw [hgr] at hr
    obtain ⟨x, hx, hle⟩ := Counter.getResults_le batches 0 r hr
    rw [hfin] at hle
    exact ⟨x, hx, hle⟩

/-- Witness for C3: the whole scenario as one batch, from the zero-initialised
counter, which meets every range side condition. -/
theorem c3_aggregate_correctness_witness :
    ([Counter.scenarioOps].flatten.Perm Counter.scenarioOps) ∧
    (-2147483648 ≤ (0 : Int)) ∧
    ((0 : Int) + (Counter.countIncr [] : Int) < 2147483648) ∧
    ((Counter.countIncr [] : Int) < 2147483648) ∧
    Counter.runBatchesWrap 0 [Counter.scenarioOps] = 900 := by
  have h : ([Counter.scenarioOps].flatten.Perm Counter.scenarioOps) := by
    simp
  exact ⟨h, by decide, by decide, by decide,
    (c3_aggregate_correctness 0 [] [Counter.scenarioOps] h (by decide) (by decide)
      (by decide)).2.1⟩

/-- Helper: combining a pairing tree with the Counter combinator yields the sum
of its leaves. -/
theorem Counter.fold_eq_sum (t : Counter.CombTree Int) :
    Counter.CombTree.fold Counter.reduce t = t.leaves.sum := by
  induction t with
  | leaf x => simp [Counter.CombTree.fold, Counter.CombTree.leaves]
  | branch l r ihl ihr =>
      simp [Counter.CombTree.fold, Counter.CombTree.leaves, ihl, ihr, Counter.reduce]

/-- Helper: a pairing tree has at least one leaf. -/
theorem Counter.leaves_ne_nil (t : Counter.CombTree Int) : t.leaves ≠ [] := by
  induction t with
  | leaf x => simp [Counter.CombTree.leaves]
  | branch l r ihl ihr => simp [Counter.CombTree.leaves, ihl]

/-- Helper: the sequential fold of a non-empty contribution list is its sum. -/
theorem Counter.seqFold_eq_sum (xs : List Int) (h : xs ≠ []) :
    Counter.seqFold xs = xs.sum := by
  cases xs with
  | nil => cases h rfl
  | cons a l => simp [Counter.seqFold, Counter.foldl_reduce]

/-- C7: the Counter combinator is associative and commutative, and the batch
aggregate is independent of the pairing order: any binary divide-and-conquer
tree over the contributions equals the sequential fold, and any two pairing
trees over the same multiset of contributions agree. -/
theorem c7_combine_pairing_invariance (a b c : Int)
    (t1 t2 : Counter.CombTree Int) (h : t1.leaves.Perm t2.leaves) :
    Counter.reduce (Counter.reduce a b) c = Counter.reduce a (Counter.reduce b c) ∧
    Counter.reduce a b = Counter.reduce b a ∧
    Counter.CombTree.fold Counter.reduce t1 = Counter.seqFold t1.leaves ∧
    Counter.CombTree.fold Counter.reduce t1 = Counter.CombTree.fold Counter.reduce t2 := by
  refine ⟨?_, ?_, ?_, ?_⟩
  · simp [Counter.reduce, add_assoc]
  · simp [Counter.reduce, add_comm]
  · rw [Counter.fold_eq_sum, Counter.seqFold_eq_sum _ (Counter.leaves_ne_nil t1)]
  · rw [Counter.fold_eq_sum, Counter.fold_eq_sum, h.sum_eq]

/-- Witness for C7: a right-leaning and a left-leaning pairing of the same
three contributions. -/
theorem c7_combine_pairing_invariance_witness :
    ((Counter.CombTree.branch (Counter.CombTree.leaf (1 : Int))
        (Counter.CombTree.branch (Counter.CombTree.leaf 2) (Counter.CombTree.leaf 3))).leaves.Perm
      (Counter.CombTree.branch
        (Counter.CombTree.branch (Counter.CombTree.leaf 1) (Counter.CombTree.leaf 2))
        (Counter.CombTree.leaf 3)).leaves) ∧
    Counter.CombTree.fold Counter.reduce
        (Counter.CombTree.branch (Counter.CombTree.leaf (1 : Int))
          (Counter.CombTree.branch (Counter.CombTree.leaf 2) (Counter.CombTree.leaf 3))) =
      Counter.CombTree.fold Counter.reduce
        (Counter.CombTree.branch
          (Counter.CombTree.branch (Counter.CombTree.leaf 1) (Counter.CombTree.leaf 2))
          (Counter.CombTree.leaf 3)) := by
  have h : ((Counter.CombTree.branch (Counter.CombTree.leaf (1 : Int))
      (Counter.CombTree.branch (Counter.CombTree.leaf 2) (Counter.CombTree.leaf 3))).leaves.Perm
    (Counter.CombTree.branch
      (Counter.CombTree.branch (Counter.CombTree.leaf 1) (Counter.CombTree.leaf 2))
      (Counter.CombTree.leaf 3)).leaves) := by
    simp [Counter.CombTree.leaves]
  exact ⟨h, (c7_combine_pairing_invariance 0 0 0 _ _ h).2.2.2⟩

/-- C8: the batched tree-map consumer is unfinished. The reduce combinator and
every arm of the per-operation map closure of RBTreeMap::run_batch are todo!()
— they panic with the message not yet implemented — so for every non-empty
batch run_batch panics in the projection phase, resolving no operation's
callback and producing no merged tree. -/
theorem c8_rbtree_batch_unimplemented {α β : Type} (m : RBT.Tree α β)
    (ops : List (RBT.MapOp α β)) (op : RBT.MapOp α β) (l r : RBT.Tree α β)
    (h : ops ≠ []) :
    RBT.rbMapOp op = Except.error "not yet implemented" ∧
    RBT.rbReduce l r = Except.error "not yet implemented" ∧
    RBT.rbRunBatch m ops = Except.error "not yet implemented" := by
  refine ⟨?_, rfl, ?_⟩
  · cases op <;> rfl
  · cases ops with
    | nil => cases h rfl
    | cons op rest => cases op <;> rfl

/-- Witness for C8: a singleton Get batch against the empty map. -/
theorem c8_rbtree_batch_unimplemented_witness :
    (([RBT.MapOp.getOp 1] : List (RBT.MapOp Nat Nat)) ≠ []) ∧
    RBT.rbRunBatch (RBT.Tree.nil : RBT.Tree Nat Nat) [RBT.MapOp.getOp 1] =
      Except.error "not yet implemented" := by
  have h : (([RBT.MapOp.getOp 1] : List (RBT.MapOp Nat Nat)) ≠ []) := by
    simp
  exact ⟨h, (c8_rbtree_batch_unimplemented RBT.Tree.nil _ (RBT.MapOp.getOp 1)
    RBT.Tree.nil RBT.Tree.nil h).2.2⟩

/-- Helper: bindings of the empty tree. -/
theorem RBT.pairs_nil {α β : Type} : RBT.pairs (RBT.Tree.nil : RBT.Tree α β) = 0 := rfl

/-- Helper: bindings of a node. -/
theorem RBT.pairs_node {α β : Type} (k : α) (v : β) (c : RBT.Color) (l r : RBT.Tree α β) :
    RBT.pairs (RBT.Tree.node k v c l r) = (k, v) ::ₘ (RBT.pairs l + RBT.pairs r) := rfl

/-- Helper: keys of the empty tree. -/
theorem RBT.keys_nil {α β : Type} : RBT.keys (RBT.Tree.nil : RBT.Tree α β) = 0 := rfl

/-- Helper: keys of a node. -/
theorem RBT.keys_node {α β : Type} (k : α) (v : β) (c : RBT.Color) (l r : RBT.Tree α β) :
    RBT.keys (RBT.Tree.node k v c l r) = k ::ₘ (RBT.keys l + RBT.keys r) := by
  simp [RBT.keys, RBT.pairs_node]

/-- Helper: a key is stored iff some binding with it is stored. -/
theorem RBT.mem_keys_iff {α β : Type} (t : RBT.Tree α β) (x : α) :
    x ∈ RBT.keys t ↔ ∃ v, (x, v) ∈ RBT.pairs t := by
  unfold RBT.keys
  rw [Multiset.mem_map]
  constructor
  · rintro ⟨⟨a, b⟩, hm, rfl⟩
    exact ⟨b, hm⟩
  · rintro ⟨v, hv⟩
    exact ⟨(x, v), hv, rfl⟩

/-- Helper: under the BST invariant the stored keys are pairwise distinct. -/
theorem RBT.bst_keys_nodup {α β : Type} [LinearOrder α] (t : RBT.Tree α β)
    (h : RBT.BST t) : (RBT.keys t).Nodup := by
  induction t with
  | nil => simp [RBT.keys_nil]
  | node k v c l r ihl ihr =>
      simp only [RBT.BST] at h
      obtain ⟨hl, hr, bl, br⟩ := h
      rw [RBT.keys_node, Multiset.nodup_cons]
      constructor
      · intro hk
        rw [Multiset.mem_add] at hk
        rcases hk with hk | hk
        · exact absurd (hl k hk) (lt_irrefl k)
        · exact absurd (hr k hk) (lt_irrefl k)
      · rw [Multiset.nodup_add]
        refine ⟨ihl bl, ihr br, Multiset.disjoint_left.2 (fun hx1 hx2 => ?_)⟩
        exact absurd (lt_trans (hl _ hx1) (hr _ hx2)) (lt_irrefl _)

/-- Helper: balance preserves the multiset of bindings — each rotation only
rearranges the same three nodes and four subtrees. -/
theorem RBT.balance_pairs {α β : Type} (t : RBT.Tree α β) :
    RBT.pairs (RBT.balance t) = RBT.pairs t := by
  unfold RBT.balance
  split
  all_goals first
  | rfl
  | (simp only [RBT.pairs_node, ← Multiset.singleton_add]; abel)

/-- Helper: balance preserves the multiset of keys. -/
theorem RBT.balance_keys {α β : Type} (t : RBT.Tree α β) :
    RBT.keys (RBT.balance t) = RBT.keys t := by
  unfold RBT.keys
  rw [RBT.balance_pairs]

/-- Helper: the tree shape produced by every rotation of balance is a BST once
its three keys are ordered and the four subtrees are bounded accordingly. -/
theorem RBT.bst_assemble {α β : Type} [LinearOrder α] {tk lk rk : α} {tv lv rv : β}
    {c1 c2 c3 : RBT.Color} {ll lr rl rr : RBT.Tree α β}
    (hlk : lk < tk) (hrk : tk < rk)
    (hll : ∀ x ∈ RBT.keys ll, x < lk)
    (hlr : ∀ x ∈ RBT.keys lr, lk < x ∧ x < tk)
    (hrl : ∀ x ∈ RBT.keys rl, tk < x ∧ x < rk)
    (hrr : ∀ x ∈ RBT.keys rr, rk < x)
    (bll : RBT.BST ll) (blr : RBT.BST lr) (brl : RBT.BST rl) (brr : RBT.BST rr) :
    RBT.BST (RBT.Tree.node tk tv c1 (RBT.Tree.node lk lv c2 ll lr)
      (RBT.Tree.node rk rv c3 rl rr)) := by
  simp only [RBT.BST]
  refine ⟨?_, ?_, ⟨hll, fun x hx => (hlr x hx).1, bll, blr⟩,
    ⟨fun x hx => (hrl x hx).2, hrr, brl, brr⟩⟩
  · intro x hx
    simp only [RBT.keys_node, Multiset.mem_cons, Multiset.mem_add] at hx
    rcases hx with rfl | hx | hx
    · exact hlk
    · exact lt_trans (hll x hx) hlk
    · exact (hlr x hx).2
  · intro x hx
    simp only [RBT.keys_node, Multiset.mem_cons, Multiset.mem_add] at hx
    rcases hx with rfl | hx | hx
    · exact hrk
    · exact (hrl x hx).1
    · exact lt_trans hrk (hrr x hx)

/-- Helper: balance preserves the BST ordering invariant. -/
theorem RBT.balance_bst {α β : Type} [LinearOrder α] (t : RBT.Tree α β)
    (h : RBT.BST t) : RBT.BST (RBT.balance t) := by
  unfold RBT.balance
  split
  · simp only [RBT.BST] at h
    obtain ⟨hA, hB, ⟨hC1, hC2, ⟨hD1, hD2, bll, blr⟩, brl⟩, brr⟩ := h
    exact RBT.bst_assemble (hC1 _ (by simp [RBT.keys_node])) (hA _ (by simp [RBT.keys_node]))
      hD1
      (fun x hx => ⟨hD2 x hx, hC1 x (by simp [RBT.keys_node, hx])⟩)
      (fun x hx => ⟨hC2 x hx, hA x (by simp [RBT.keys_node, hx])⟩)
      hB bll blr brl brr
  · simp only [RBT.BST] at h
    obtain ⟨hA, hB, ⟨hC1, hC2, bll, ⟨hD1, hD2, blr, brl⟩⟩, brr⟩ := h
    exact RBT.bst_assemble (hC2 _ (by simp [RBT.keys_node])) (hA _ (by simp [RBT.keys_node]))
      hC1
      (fun x hx => ⟨hC2 x (by simp [RBT.keys_node, hx]), hD1 x hx⟩)
      (fun x hx => ⟨hD2 x hx, hA x (by simp [RBT.keys_node, hx])⟩)
      hB bll blr brl brr
  · simp only [RBT.BST] at h
    obtain ⟨hA, hB, bll, ⟨hC1, hC2, ⟨hD1, hD2, blr, brl⟩, brr⟩⟩ := h
    exact RBT.bst_assemble (hB _ (by simp [RBT.keys_node])) (hC1 _ (by simp [RBT.keys_node]))
      hA
      (fun x hx => ⟨hB x (by simp [RBT.keys_node, hx]), hD1 x hx⟩)
      (fun x hx => ⟨hD2 x hx, hC1 x (by simp [RBT.keys_node, hx])⟩)
      hC2 bll blr brl brr
  · simp only [RBT.BST] at h
    obtain ⟨hA, hB, bll, ⟨hC1, hC2, blr, ⟨hD1, hD2, brl, brr⟩⟩⟩ := h
    exact RBT.bst_assemble (hB _ (by simp [RBT.keys_node])) (hC2 _ (by simp [RBT.keys_node]))
      hA
      (fun x hx => ⟨hB x (by simp [RBT.keys_node, hx]), hC1 x hx⟩)
      (fun x hx => ⟨hC2 x (by simp [RBT.keys_node, hx]), hD1 x hx⟩)
      hD2 bll blr brl brr
  all_goals exact h

/-- Helper: under the BST invariant, find returns exactly the stored bindings. -/
theorem RBT.find_some_iff {α β : Type} [LinearOrder α] (t : RBT.Tree α β)
    (h : RBT.BST t) (k : α) (v : β) :
    RBT.find t k = some v ↔ (k, v) ∈ RBT.pairs t := by
  induction t with
  | nil => simp [RBT.find, RBT.pairs_nil]
  | node nk nv nc nl nr ihl ihr =>
      simp only [RBT.BST] at h
      obtain ⟨hl, hr, bl, br⟩ := h
      simp only [RBT.find]
      rcases lt_trichotomy k nk with hlt | heq | hgt
      · rw [if_pos hlt, ihl bl]
        simp only [RBT.pairs_node, Multiset.mem_cons, Multiset.mem_add, Prod.mk.injEq]
        constructor
        · exact fun hm => Or.inr (Or.inl hm)
        · rintro (⟨rfl, rfl⟩ | hm | hm)
          · exact absurd hlt (lt_irrefl _)
          · exact hm
          · exact absurd (hr k ((RBT.mem_keys_iff nr k).2 ⟨v, hm⟩)) (lt_asymm hlt)
      · subst heq
        rw [if_neg (lt_irrefl k), if_neg (lt_irrefl k)]
        simp only [RBT.pairs_node, Multiset.mem_cons, Multiset.mem_add, Prod.mk.injEq,
          Option.some.injEq]
        constructor
        · exact fun hv => Or.inl ⟨trivial, hv.symm⟩
        · rintro (⟨_, rfl⟩ | hm | hm)
          · rfl
          · exact absurd (hl k ((RBT.mem_keys_iff nl k).2 ⟨v, hm⟩)) (lt_irrefl k)
          · exact absurd (hr k ((RBT.mem_keys_iff nr k).2 ⟨v, hm⟩)) (lt_irrefl k)
      · rw [if_neg (lt_asymm hgt), if_pos hgt, ihr br]
        simp only [RBT.pairs_node, Multiset.mem_cons, Multiset.mem_add, Prod.mk.injEq]
        constructor
        · exact fun hm => Or.inr (Or.inr hm)
        · rintro (⟨rfl, rfl⟩ | hm | hm)
          · exact absurd hgt (lt_irrefl _)
          · exact absurd (hl k ((RBT.mem_keys_iff nl k).2 ⟨v, hm⟩)) (lt_asymm hgt)
          · exact hm

/-- Helper: under the BST invariant, find misses exactly the absent keys. -/
theorem RBT.find_none_iff {α β : Type} [LinearOrder α] (t : RBT.Tree α β)
    (h : RBT.BST t) (k : α) :
    RBT.find t k = none ↔ k ∉ RBT.keys t := by
  constructor
  · intro hf hk
    obtain ⟨v, hv⟩ := (RBT.mem_keys_iff t k).1 hk
    have hs := (RBT.find_some_iff t h k v).2 hv
    rw [hf] at hs
    cases hs
  · intro hk
    cases hfind : RBT.find t k with
    | none => rfl
    | some v =>
        have hs := (RBT.find_some_iff t h k v).1 hfind
        exact (hk ((RBT.mem_keys_iff t k).2 ⟨v, hs⟩)).elim

/-- Helper: two BSTs holding the same multiset of bindings answer every find
identically. -/
theorem RBT.find_congr {α β : Type} [LinearOrder α] {t1 t2 : RBT.Tree α β}
    (h1 : RBT.BST t1) (h2 : RBT.BST t2)
    (hp : RBT.pairs t1 = RBT.pairs t2) (k : α) :
    RBT.find t1 k = RBT.find t2 k := by
  cases hf : RBT.find t1 k with
  | some v =>
      have hm := (RBT.find_some_iff t1 h1 k v).1 hf
      rw [hp] at hm
      exact ((RBT.find_some_iff t2 h2 k v).2 hm).symm
  | none =>
      have hm := (RBT.find_none_iff t1 h1 k).1 hf
      have hkeys : RBT.keys t1 = RBT.keys t2 := by
        unfold RBT.keys
        rw [hp]
      rw [hkeys] at hm
      exact ((RBT.find_none_iff t2 h2 k).2 hm).symm

/-- Helper: balance does not change any find answer on a BST. -/
theorem RBT.balance_find {α β : Type} [LinearOrder α] (t : RBT.Tree α β)
    (h : RBT.BST t) (k : α) :
    RBT.find (RBT.balance t) k = RBT.find t k :=
  RBT.find_congr (RBT.balance_bst t h) h (RBT.balance_pairs t) k

/-- Helper: insertion introduces no key besides the inserted one. -/
theorem RBT.insertInto_keys {α β : Type} [LinearOrder α] (t : RBT.Tree α β) (k : α) (v : β) :
    ∀ x ∈ RBT.keys (RBT.insertInto t k v), x = k ∨ x ∈ RBT.keys t := by
  induction t with
  | nil =>
      intro x hx
      simp only [RBT.insertInto, RBT.keys_node, RBT.keys_nil, Multiset.mem_cons,
        Multiset.mem_add] at hx
      rcases hx with rfl | hx | hx
      · exact Or.inl rfl
      · cases hx
      · cases hx
  | node nk nv nc nl nr ihl ihr =>
      intro x hx
      simp only [RBT.insertInto] at hx
      rcases lt_trichotomy k nk with hlt | heq | hgt
      · rw [if_pos hlt] at hx
        simp only [RBT.keys_node, Multiset.mem_cons, Multiset.mem_add] at hx ⊢
        rcases hx with rfl | hx | hx
        · exact Or.inr (Or.inl rfl)
        · rcases ihl x hx with rfl | hm
          · exact Or.inl rfl
          · exact Or.inr (Or.inr (Or.inl hm))
        · exact Or.inr (Or.inr (Or.inr hx))
      · subst heq
        rw [if_neg (lt_irrefl k), if_neg (lt_irrefl k)] at hx
        simp only [RBT.keys_node, Multiset.mem_cons, Multiset.mem_add] at hx ⊢
        rcases hx with rfl | hx | hx
        · exact Or.inl rfl
        · exact Or.inr (Or.inr (Or.inl hx))
        · exact Or.inr (Or.inr (Or.inr hx))
      · rw [if_neg (lt_asymm hgt), if_pos hgt] at hx
        simp only [RBT.keys_node, Multiset.mem_cons, Multiset.mem_add] at hx ⊢
        rcases hx with rfl | hx | hx
        · exact Or.inr (Or.inl rfl)
        · exact Or.inr (Or.inr (Or.inl hx))
        · rcases ihr x hx with rfl | hm
          · exact Or.inl rfl
          · exact Or.inr (Or.inr (Or.inr hm))

/-- Helper: insertion preserves the BST ordering invariant. -/
theorem RBT.insertInto_bst {α β : Type} [LinearOrder α] (t : RBT.Tree α β)
    (h : RBT.BST t) (k : α) (v : β) : RBT.BST (RBT.insertInto t k v) := by
  induction t with
  | nil =>
      simp [RBT.insertInto, RBT.BST, RBT.keys_nil]
  | node nk nv nc nl nr ihl ihr =>
      simp only [RBT.BST] at h
      obtain ⟨hl, hr, bl, br⟩ := h
      simp only [RBT.insertInto]
      rcases lt_trichotomy k nk with hlt | heq | hgt
      · rw [if_pos hlt]
        simp only [RBT.BST]
        refine ⟨?_, hr, ihl bl, br⟩
        intro x hx
        rcases RBT.insertInto_keys nl k v x hx with rfl | hm
        · exact hlt
        · exact hl x hm
      · subst heq
        rw [if_neg (lt_irrefl k), if_neg (lt_irrefl k)]
        simp only [RBT.BST]
        exact ⟨hl, hr, bl, br⟩
      · rw [if_neg (lt_asymm hgt), if_pos hgt]
        simp only [RBT.BST]
        refine ⟨hl, ?_, bl, ihr br⟩
        intro x hx
        rcases RBT.insertInto_keys nr k v x hx with rfl | hm
        · exact hgt
        · exact hr x hm

/-- Helper: after insertion, the inserted key finds the inserted value. -/
theorem RBT.insertInto_find_self {α β : Type} [LinearOrder α] (t : RBT.Tree α β)
    (k : α) (v : β) : RBT.find (RBT.insertInto t k v) k = some v := by
  induction t with
  | nil => simp [RBT.insertInto, RBT.find, lt_irrefl]
  | node nk nv nc nl nr ihl ihr =>
      simp only [RBT.insertInto]
      rcases lt_trichotomy k nk with hlt | heq | hgt
      · rw [if_pos hlt]
        simp only [RBT.find]
        rw [if_pos hlt]
        exact ihl
      · subst heq
        rw [if_neg (lt_irrefl k), if_neg (lt_irrefl k)]
        simp only [RBT.find]
        rw [if_neg (lt_irrefl k), if_neg (lt_irrefl k)]
      · rw [if_neg (lt_asymm hgt), if_pos hgt]
        simp only [RBT.find]
        rw [if_neg (lt_asymm hgt), if_pos hgt]
        exact ihr

/-- Helper: insertion does not change find at any other key. -/
theorem RBT.insertInto_find_ne {α β : Type} [LinearOrder α] (t : RBT.Tree α β)
    (k : α) (v : β) (k2 : α) (hne : k2 ≠ k) :
    RBT.find (RBT.insertInto t k v) k2 = RBT.find t k2 := by
  induction t with
  | nil =>
      simp only [RBT.insertInto, RBT.find]
      split_ifs with h1 h2
      · rfl
      · rfl
      · exact absurd (le_antisymm (not_lt.1 h2) (not_lt.1 h1)) hne
  | node nk nv nc nl nr ihl ihr =>
      simp only [RBT.insertInto]
      rcases lt_trichotomy k nk with hlt | heq | hgt
      · rw [if_pos hlt]
        simp only [RBT.find]
        split_ifs with h1 h2
        · exact ihl
        · rfl
        · rfl
      · subst heq
        rw [if_neg (lt_irrefl k), if_neg (lt_irrefl k)]
        simp only [RBT.find]
        split_ifs with h1 h2
        · rfl
        · rfl
        · exact absurd (le_antisymm (not_lt.1 h2) (not_lt.1 h1)) hne
      · rw [if_neg (lt_asymm hgt), if_pos hgt]
        simp only [RBT.find]
        split_ifs with h1 h2
        · rfl
        · exact ihr
        · rfl

/-- Helper: on a non-empty BST, get_highest detaches exactly one binding — the
one with the greatest key — leaving a BST holding the remaining bindings, all
with smaller keys. -/
theorem RBT.getHighest_spec {α β : Type} [LinearOrder α] :
    ∀ (t : RBT.Tree α β), RBT.BST t → t ≠ RBT.Tree.nil →
      ∃ t1 hk hv, RBT.getHighest t = (t1, some (hk, hv)) ∧
        RBT.pairs t = (hk, hv) ::ₘ RBT.pairs t1 ∧
        RBT.BST t1 ∧ (∀ x ∈ RBT.keys t1, x < hk) ∧ hk ∈ RBT.keys t := by
  intro t
  induction t with
  | nil => intro _ hne; exact (hne rfl).elim
  | node nk nv nc nl nr ihl ihr =>
      intro h _
      simp only [RBT.BST] at h
      obtain ⟨hl, hr, bl, br⟩ := h
      cases nr with
      | nil =>
          refine ⟨nl, nk, nv, rfl, ?_, bl, hl, ?_⟩
          · simp [RBT.pairs_node, RBT.pairs_nil]
          · simp [RBT.keys_node]
      | node rk rv rc rl rr =>
          obtain ⟨t1, hk, hv, hgh, hpairs, hbst1, hbound, hmem⟩ :=
            ihr br (by simp)
          have hkeys : RBT.keys (RBT.Tree.node rk rv rc rl rr) = hk ::ₘ RBT.keys t1 := by
            unfold RBT.keys
            rw [hpairs]
            simp
          refine ⟨RBT.Tree.node nk nv nc nl t1, hk, hv, ?_, ?_, ?_, ?_, ?_⟩
          · rw [show RBT.getHighest (RBT.Tree.node nk nv nc nl (RBT.Tree.node rk rv rc rl rr)) =
                (RBT.Tree.node nk nv nc nl
                    (RBT.getHighest (RBT.Tree.node rk rv rc rl rr)).1,
                  (RBT.getHighest (RBT.Tree.node rk rv rc rl rr)).2) from rfl]
            rw [hgh]
          · rw [RBT.pairs_node, hpairs, RBT.pairs_node]
            simp only [← Multiset.singleton_add]
            abel
          · simp only [RBT.BST]
            refine ⟨hl, ?_, bl, hbst1⟩
            intro x hx
            exact hr x (by rw [hkeys]; exact Multiset.mem_cons_of_mem hx)
          · intro x hx
            simp only [RBT.keys_node, Multiset.mem_cons, Multiset.mem_add] at hx
            rcases hx with rfl | hx | hx
            · exact hr hk hmem
            · exact lt_trans (hl x hx) (hr hk hmem)
            · exact hbound x hx
          · rw [RBT.keys_node]
            exact Multiset.mem_cons_of_mem (Multiset.mem_add.2 (Or.inr hmem))

/-- Helper: remove_from_pred is the identity on a tree not containing the key
it looks for — in the source this call runs after get_highest has already
detached the predecessor. -/
theorem RBT.removeFromPred_id {α β : Type} [LinearOrder α] (t : RBT.Tree α β) (k : α)
    (h : k ∉ RBT.keys t) : RBT.removeFromPred t k = t := by
  induction t with
  | nil => rfl
  | node nk nv nc nl nr ihl ihr =>
      have hne : nk ≠ k := by
        intro he
        exact h (by simp [RBT.keys_node, he])
      simp only [RBT.removeFromPred]
      rw [if_pos hne]
      rw [ihl (fun hm => h (by simp [RBT.keys_node, hm]))]

/-- Helper: remove_node on a BST returns a BST holding every binding except
the removed one, together with exactly the value that find reports, and
introduces no new key. -/
theorem RBT.removeNode_spec {α β : Type} [LinearOrder α] :
    ∀ (t : RBT.Tree α β), RBT.BST t → ∀ k : α,
      RBT.BST (RBT.removeNode t k).1 ∧
      (RBT.removeNode t k).2 = RBT.find t k ∧
      (∀ x ∈ RBT.keys (RBT.removeNode t k).1, x ∈ RBT.keys t) ∧
      RBT.pairs t = (match RBT.find t k with
        | some v => (k, v) ::ₘ RBT.pairs (RBT.removeNode t k).1
        | none => RBT.pairs (RBT.removeNode t k).1) := by
  intro t
  induction t with
  | nil =>
      intro _ k
      simp [RBT.removeNode, RBT.find, RBT.BST, RBT.pairs_nil, RBT.keys_nil]
  | node nk nv nc nl nr ihl ihr =>
      intro h k
      simp only [RBT.BST] at h
      obtain ⟨hl, hr, bl, br⟩ := h
      rcases lt_trichotomy k nk with hlt | rfl | hgt
      · obtain ⟨b1, v1, s1, p1⟩ := ihl bl k
        have hrw1 : RBT.removeNode (RBT.Tree.node nk nv nc nl nr) k =
            (RBT.Tree.node nk nv nc (RBT.removeNode nl k).1 nr, (RBT.removeNode nl k).2) := by
          simp only [RBT.removeNode, hlt, if_true]
        have hrw2 : RBT.find (RBT.Tree.node nk nv nc nl nr) k = RBT.find nl k := by
          simp only [RBT.find, hlt, if_true]
        rw [hrw1, hrw2]
        refine ⟨?_, v1, ?_, ?_⟩
        · simp only [RBT.BST]
          exact ⟨fun x hx => hl x (s1 x hx), hr, b1, br⟩
        · intro x hx
          simp only [RBT.keys_node, Multiset.mem_cons, Multiset.mem_add] at hx ⊢
          rcases hx with rfl | hx | hx
          · exact Or.inl rfl
          · exact Or.inr (Or.inl (s1 x hx))
          · exact Or.inr (Or.inr hx)
        · cases hfind : RBT.find nl k with
          | none =>
              simp only [hfind] at p1 ⊢
              rw [RBT.pairs_node, RBT.pairs_node, p1]
          | some v =>
              simp only [hfind] at p1 ⊢
              rw [RBT.pairs_node, RBT.pairs_node, p1]
              simp only [← Multiset.singleton_add]
              abel
      · have hrw2 : RBT.find (RBT.Tree.node k nv nc nl nr) k = some nv := by
          simp only [RBT.find, lt_self_iff_false, if_false]
        cases nl with
        | nil =>
            cases nr with
            | nil =>
                have hrw1 : RBT.removeNode
                    (RBT.Tree.node k nv nc RBT.Tree.nil RBT.Tree.nil) k =
                    (RBT.Tree.nil, some nv) := by
                  simp only [RBT.removeNode, lt_self_iff_false, if_false]
                rw [hrw1, hrw2]
                refine ⟨trivial, rfl, ?_, ?_⟩
                · intro x hx
                  simp [RBT.keys_nil] at hx
                · simp [RBT.pairs_node, RBT.pairs_nil]
            | node a2 b2 c2 d2 e2 =>
                have hrw1 : RBT.removeNode
                    (RBT.Tree.node k nv nc RBT.Tree.nil (RBT.Tree.node a2 b2 c2 d2 e2)) k =
                    (RBT.Tree.node a2 b2 c2 d2 e2, some nv) := by
                  simp only [RBT.removeNode, lt_self_iff_false, if_false]
                rw [hrw1, hrw2]
                refine ⟨br, rfl, ?_, ?_⟩
                · intro x hx
                  simp only [RBT.keys_node, RBT.keys_nil, Multiset.mem_cons,
                    Multiset.mem_add] at hx ⊢
                  exact Or.inr (Or.inr hx)
                · simp [RBT.pairs_node, RBT.pairs_nil]
        | node a1 b1 c1 d1 e1 =>
            cases nr with
            | nil =>
                have hrw1 : RBT.removeNode
                    (RBT.Tree.node k nv nc (RBT.Tree.node a1 b1 c1 d1 e1) RBT.Tree.nil) k =
                    (RBT.Tree.node a1 b1 c1 d1 e1, some nv) := by
                  simp only [RBT.removeNode, lt_self_iff_false, if_false]
                rw [hrw1, hrw2]
                refine ⟨bl, rfl, ?_, ?_⟩
                · intro x hx
                  simp only [RBT.keys_node, RBT.keys_nil, Multiset.mem_cons,
                    Multiset.mem_add] at hx ⊢
                  exact Or.inr (Or.inl hx)
                · simp [RBT.pairs_node, RBT.pairs_nil]
            | node a2 b2 c2 d2 e2 =>
                obtain ⟨t1, hk, hv, hgh, hpairsL, hbst1, hbound, hmemL⟩ :=
                  RBT.getHighest_spec (RBT.Tree.node a1 b1 c1 d1 e1) bl (by simp)
                have hnm : hk ∉ RBT.keys t1 := fun hm => absurd (hbound hk hm) (lt_irrefl hk)
                have hrfp := RBT.removeFromPred_id t1 hk hnm
                have hrw1 : RBT.removeNode
                    (RBT.Tree.node k nv nc (RBT.Tree.node a1 b1 c1 d1 e1)
                      (RBT.Tree.node a2 b2 c2 d2 e2)) k =
                    (RBT.Tree.node hk hv nc t1 (RBT.Tree.node a2 b2 c2 d2 e2), some nv) := by
                  simp only [RBT.removeNode, lt_self_iff_false, if_false, hgh, hrfp]
                rw [hrw1, hrw2]
                have hkhi : hk < k := hl hk hmemL
                refine ⟨?_, rfl, ?_, ?_⟩
                · simp only [RBT.BST]
                  refine ⟨hbound, ?_, hbst1, br⟩
                  intro x hx
                  exact lt_trans hkhi (hr x hx)
                · intro x hx
                  have hkeysL : RBT.keys (RBT.Tree.node a1 b1 c1 d1 e1) =
                      hk ::ₘ RBT.keys t1 := by
                    unfold RBT.keys
                    rw [hpairsL]
                    simp
                  simp only [RBT.keys_node, Multiset.mem_cons, Multiset.mem_add] at hx ⊢
                  rcases hx with rfl | hx | hx
                  · right
                    left
                    simpa [RBT.keys_node, Multiset.mem_cons, Multiset.mem_add] using hmemL
                  · right
                    left
                    have hmm : x ∈ RBT.keys (RBT.Tree.node a1 b1 c1 d1 e1) := by
                      rw [hkeysL]
                      exact Multiset.mem_cons_of_mem hx
                    simpa [RBT.keys_node, Multiset.mem_cons, Multiset.mem_add] using hmm
                  · exact Or.inr (Or.inr hx)
                · simp only [hrw1, hrw2]
                  simp only [RBT.pairs_node] at hpairsL ⊢
                  rw [hpairsL]
                  simp only [← Multiset.singleton_add]
                  abel
      · obtain ⟨b1, v1, s1, p1⟩ := ihr br k
        have hrw1 : RBT.removeNode (RBT.Tree.node nk nv nc nl nr) k =
            (RBT.Tree.node nk nv nc nl (RBT.removeNode nr k).1, (RBT.removeNode nr k).2) := by
          simp only [RBT.removeNode, hgt, gt_iff_lt, if_true, lt_asymm hgt, if_false]
        have hrw2 : RBT.find (RBT.Tree.node nk nv nc nl nr) k = RBT.find nr k := by
          simp only [RBT.find, hgt, gt_iff_lt, if_true, lt_asymm hgt, if_false]
        rw [hrw1, hrw2]
        refine ⟨?_, v1, ?_, ?_⟩
        · simp only [RBT.BST]
          exact ⟨hl, fun x hx => hr x (s1 x hx), bl, b1⟩
        · intro x hx
          simp only [RBT.keys_node, Multiset.mem_cons, Multiset.mem_add] at hx ⊢
          rcases hx with rfl | hx | hx
          · exact Or.inl rfl
          · exact Or.inr (Or.inl hx)
          · exact Or.inr (Or.inr (s1 x hx))
        · cases hfind : RBT.find nr k with
          | none =>
              simp only [hfind] at p1 ⊢
              rw [RBT.pairs_node, RBT.pairs_node, p1]
          | some v =>
              simp only [hfind] at p1 ⊢
              rw [RBT.pairs_node, RBT.pairs_node, p1]
              simp only [← Multiset.singleton_add]
              abel

/-- Helper: remove returns the same value as remove_node. -/
theorem RBT.remove_val {α β : Type} [LinearOrder α] (t : RBT.Tree α β)
    (h : RBT.BST t) (k : α) : (RBT.remove t k).2 = RBT.find t k := by
  have hv := (RBT.removeNode_spec t h k).2.1
  simpa [RBT.remove] using hv

/-- Helper: the tree remove leaves behind is the balanced remove_node tree,
with the same keys. -/
theorem RBT.remove_keys {α β : Type} [LinearOrder α] (t : RBT.Tree α β) (k : α) :
    RBT.keys (RBT.remove t k).1 = RBT.keys (RBT.removeNode t k).1 := by
  simp only [RBT.remove]
  cases hrn : (RBT.removeNode t k).1 with
  | nil => simp [hrn]
  | node a b c d e =>
      simp only [hrn]
      exact RBT.balance_keys _

/-- Helper: and the same bindings. -/
theorem RBT.remove_pairs {α β : Type} [LinearOrder α] (t : RBT.Tree α β) (k : α) :
    RBT.pairs (RBT.remove t k).1 = RBT.pairs (RBT.removeNode t k).1 := by
  simp only [RBT.remove]
  cases hrn : (RBT.removeNode t k).1 with
  | nil => simp [hrn]
  | node a b c d e =>
      simp only [hrn]
      exact RBT.balance_pairs _

/-- Helper: remove preserves the BST ordering invariant. -/
theorem RBT.remove_bst {α β : Type} [LinearOrder α] (t : RBT.Tree α β)
    (h : RBT.BST t) (k : α) : RBT.BST (RBT.remove t k).1 := by
  have hb := (RBT.removeNode_spec t h k).1
  simp only [RBT.remove]
  cases hrn : (RBT.removeNode t k).1 with
  | nil => simp only [hrn]; trivial
  | node a b c d e =>
      simp only [hrn]
      rw [hrn] at hb
      exact RBT.balance_bst _ hb

/-- Helper: the removed key is gone from the tree remove_node leaves. -/
theorem RBT.not_mem_keys_removeNode {α β : Type} [LinearOrder α] (t : RBT.Tree α β)
    (h : RBT.BST t) (k : α) : k ∉ RBT.keys (RBT.removeNode t k).1 := by
  have hnd := RBT.bst_keys_nodup t h
  have hp := (RBT.removeNode_spec t h k).2.2.2
  cases hfind : RBT.find t k with
  | some v =>
      simp only [hfind] at hp
      have hkeys : RBT.keys t = k ::ₘ RBT.keys (RBT.removeNode t k).1 := by
        unfold RBT.keys
        rw [hp]
        simp
      rw [hkeys] at hnd
      exact (Multiset.nodup_cons.1 hnd).1
  | none =>
      simp only [hfind] at hp
      have hke : RBT.keys (RBT.removeNode t k).1 = RBT.keys t := by
        unfold RBT.keys
        rw [← hp]
      rw [hke]
      exact (RBT.find_none_iff t h k).1 hfind

/-- Helper: remove_node keeps every binding at a different key. -/
theorem RBT.mem_pairs_removeNode {α β : Type} [LinearOrder α] (t : RBT.Tree α β)
    (h : RBT.BST t) (k k2 : α) (v2 : β) (hne : k2 ≠ k) :
    (k2, v2) ∈ RBT.pairs (RBT.removeNode t k).1 ↔ (k2, v2) ∈ RBT.pairs t := by
  have hp := (RBT.removeNode_spec t h k).2.2.2
  cases hfind : RBT.find t k with
  | some v =>
      simp only [hfind] at hp
      rw [hp, Multiset.mem_cons]
      constructor
      · exact fun hm => Or.inr hm
      · rintro (heq | hm)
        · exact absurd (congrArg Prod.fst heq) hne
        · exact hm
  | none =>
      simp only [hfind] at hp
      rw [hp]

/-- Helper: after remove, the removed key finds nothing. -/
theorem RBT.remove_find_self {α β : Type} [LinearOrder α] (t : RBT.Tree α β)
    (h : RBT.BST t) (k : α) : RBT.find (RBT.remove t k).1 k = none := by
  rw [RBT.find_none_iff _ (RBT.remove_bst t h k) k, RBT.remove_keys]
  exact RBT.not_mem_keys_removeNode t h k

/-- Helper: remove does not change find at any other key. -/
theorem RBT.remove_find_ne {α β : Type} [LinearOrder α] (t : RBT.Tree α β)
    (h : RBT.BST t) (k k2 : α) (hne : k2 ≠ k) :
    RBT.find (RBT.remove t k).1 k2 = RBT.find t k2 := by
  have hbr := RBT.remove_bst t h k
  cases hf : RBT.find t k2 with
  | some v2 =>
      have hm := (RBT.find_some_iff t h k2 v2).1 hf
      have hm2 := (RBT.mem_pairs_removeNode t h k k2 v2 hne).2 hm
      have hm3 : (k2, v2) ∈ RBT.pairs (RBT.remove t k).1 := by
        rw [RBT.remove_pairs]
        exact hm2
      exact (RBT.find_some_iff _ hbr k2 v2).2 hm3
  | none =>
      rw [RBT.find_none_iff _ hbr k2, RBT.remove_keys]
      intro hk2
      obtain ⟨v2, hv2⟩ := (RBT.mem_keys_iff _ k2).1 hk2
      have hmm := (RBT.mem_pairs_removeNode t h k k2 v2 hne).1 hv2
      have hsome := (RBT.find_some_iff t h k2 v2).2 hmm
      rw [hf] at hsome
      cases hsome

/-- C9: RBTreeMap implements finite-map semantics on every BST map: after
insert(k, v), get(k) returns the inserted value and every other key's binding
is unchanged; remove(k) returns exactly what get(k) returned before — Some of
the stored value when present, None otherwise — and afterwards get(k) is None
while every other key's binding is unchanged. -/
theorem c9_finite_map_semantics {α β : Type} [LinearOrder α] (t : RBT.Tree α β)
    (k k2 : α) (v : β) (hbst : RBT.BST t) (hne : k2 ≠ k) :
    RBT.find (RBT.insert t k v) k = some v ∧
    RBT.find (RBT.insert t k v) k2 = RBT.find t k2 ∧
    (RBT.remove t k).2 = RBT.find t k ∧
    RBT.find (RBT.remove t k).1 k = none ∧
    RBT.find (RBT.remove t k).1 k2 = RBT.find t k2 := by
  have hib := RBT.insertInto_bst t hbst k v
  refine ⟨?_, ?_, RBT.remove_val t hbst k, RBT.remove_find_self t hbst k,
    RBT.remove_find_ne t hbst k k2 hne⟩
  · unfold RBT.insert
    rw [RBT.balance_find _ hib k]
    exact RBT.insertInto_find_self t k v
  · unfold RBT.insert
    rw [RBT.balance_find _ hib k2]
    exact RBT.insertInto_find_ne t k v k2 hne

/-- Witness for C9 at the singleton map binding 5 to 50 over Nat keys, with
inserted key 2, value 9, and other key 3. -/
theorem c9_finite_map_semantics_witness :
    RBT.BST (RBT.Tree.node 5 50 RBT.Color.red RBT.Tree.nil RBT.Tree.nil : RBT.Tree Nat Nat) ∧
    ((3 : Nat) ≠ 2) ∧
    (RBT.find (RBT.insert (RBT.Tree.node 5 50 RBT.Color.red RBT.Tree.nil RBT.Tree.nil) 2 9) 2 =
        some 9 ∧
      RBT.find (RBT.insert (RBT.Tree.node 5 50 RBT.Color.red RBT.Tree.nil RBT.Tree.nil) 2 9) 3 =
        RBT.find (RBT.Tree.node 5 50 RBT.Color.red RBT.Tree.nil RBT.Tree.nil) 3 ∧
      (RBT.remove (RBT.Tree.node 5 50 RBT.Color.red RBT.Tree.nil RBT.Tree.nil) 2).2 =
        RBT.find (RBT.Tree.node 5 50 RBT.Color.red RBT.Tree.nil RBT.Tree.nil) 2 ∧
      RBT.find (RBT.remove (RBT.Tree.node 5 50 RBT.Color.red RBT.Tree.nil RBT.Tree.nil) 2).1 2 =
        none ∧
      RBT.find (RBT.remove (RBT.Tree.node 5 50 RBT.Color.red RBT.Tree.nil RBT.Tree.nil) 2).1 3 =
        RBT.find (RBT.Tree.node 5 50 RBT.Color.red RBT.Tree.nil RBT.Tree.nil) 3) := by
  have hb : RBT.BST
      (RBT.Tree.node 5 50 RBT.Color.red RBT.Tree.nil RBT.Tree.nil : RBT.Tree Nat Nat) := by
    simp [RBT.BST, RBT.keys_nil]
  exact ⟨hb, by decide, c9_finite_map_semantics _ 2 3 9 hb (by decide)⟩

/-- C10: every RBTreeMap reachable through new, insert and remove satisfies
the binary-search-tree ordering invariant, and the balance rotation preserves
both the ordering invariant and the multiset of key-value bindings. -/
theorem c10_bst_invariant_preservation {α β : Type} [LinearOrder α]
    (t u : RBT.Tree α β) (k : α) (v : β) (hbst : RBT.BST t) (hu : RBT.BST u) :
    RBT.BST (RBT.newMap α β) ∧
    RBT.BST (RBT.insert t k v) ∧
    RBT.BST (RBT.remove t k).1 ∧
    RBT.BST (RBT.balance u) ∧
    RBT.pairs (RBT.balance u) = RBT.pairs u := by
  refine ⟨trivial, ?_, RBT.remove_bst t hbst k, RBT.balance_bst u hu, RBT.balance_pairs u⟩
  unfold RBT.insert
  exact RBT.balance_bst _ (RBT.insertInto_bst t hbst k v)

/-- Witness for C10 at a concrete left-left red-red tree, which balance
actually rotates. -/
theorem c10_bst_invariant_preservation_witness :
    RBT.BST (RBT.Tree.node 5 50 RBT.Color.red RBT.Tree.nil RBT.Tree.nil : RBT.Tree Nat Nat) ∧
    RBT.BST (RBT.Tree.node 5 50 RBT.Color.black
      (RBT.Tree.node 3 30 RBT.Color.red
        (RBT.Tree.node 1 10 RBT.Color.red RBT.Tree.nil RBT.Tree.nil) RBT.Tree.nil)
      RBT.Tree.nil : RBT.Tree Nat Nat) ∧
    (RBT.BST (RBT.newMap Nat Nat) ∧
      RBT.BST (RBT.insert (RBT.Tree.node 5 50 RBT.Color.red RBT.Tree.nil RBT.Tree.nil) 2 9) ∧
      RBT.BST (RBT.remove (RBT.Tree.node 5 50 RBT.Color.red RBT.Tree.nil RBT.Tree.nil) 2).1 ∧
      RBT.BST (RBT.balance (RBT.Tree.node 5 50 RBT.Color.black
        (RBT.Tree.node 3 30 RBT.Color.red
          (RBT.Tree.node 1 10 RBT.Color.red RBT.Tree.nil RBT.Tree.nil) RBT.Tree.nil)
        RBT.Tree.nil)) ∧
      RBT.pairs (RBT.balance (RBT.Tree.node 5 50 RBT.Color.black
        (RBT.Tree.node 3 30 RBT.Color.red
          (RBT.Tree.node 1 10 RBT.Color.red RBT.Tree.nil RBT.Tree.nil) RBT.Tree.nil)
        RBT.Tree.nil)) =
        RBT.pairs (RBT.Tree.node 5 50 RBT.Color.black
          (RBT.Tree.node 3 30 RBT.Color.red
            (RBT.Tree.node 1 10 RBT.Color.red RBT.Tree.nil RBT.Tree.nil) RBT.Tree.nil)
          RBT.Tree.nil)) := by
  have hb : RBT.BST
      (RBT.Tree.node 5 50 RBT.Color.red RBT.Tree.nil RBT.Tree.nil : RBT.Tree Nat Nat) := by
    simp [RBT.BST, RBT.keys_nil]
  have hu : RBT.BST (RBT.Tree.node 5 50 RBT.Color.black
      (RBT.Tree.node 3 30 RBT.Color.red
        (RBT.Tree.node 1 10 RBT.Color.red RBT.Tree.nil RBT.Tree.nil) RBT.Tree.nil)
      RBT.Tree.nil : RBT.Tree Nat Nat) := by
    simp [RBT.BST, RBT.keys_node, RBT.keys_nil]
  exact ⟨hb, hu, c10_bst_invariant_preservation _ _ 2 9 hb hu⟩
